import Mathlib

/-!
# Verification of the biome parsing core and the `noUnsafeNegation` lint rule

Shallow embedding of the repository fragment:
* `src/crates/biome_js_parser/src/lib.rs` — crate documentation of the lossless,
  error-tolerant parser, and `JsSyntaxFeature::is_supported`;
* `src/crates/biome_js_analyze/src/lint/suspicious/no_unsafe_negation.rs` — the
  `NoUnsafeNegation` rule (`run`, `diagnostic`, `action`) and the
  `JsInOrInstanceOfExpression` node union.

The parsing core itself (lexer, event-driven parser, error recovery, tree sink)
is not under `src/`; the `Core` namespace models it from the spec, following the
spec's architecture: source text → lexer (total, every byte becomes a token or
trivia) → parser emitting a flat event stream (StartNode / Token / FinishNode /
Error) with error recovery that wraps malformed regions in error nodes → a tree
sink replaying the events into an immutable tree, rejecting malformed streams.
-/

namespace Core

/-- Modelled from the spec: trivia kinds (§3 Data Model). Only whitespace trivia
arises in this model's lexer; the kind tag is kept to mirror the data model. -/
inductive TriviaKind where
  | whitespace
  deriving DecidableEq

/-- Modelled from the spec: a trivia unit is a kind plus its source text (§3). -/
structure Trivia where
  kind : TriviaKind
  text : List Char
  deriving DecidableEq

/-- Modelled from the spec: token kinds of a minimal grammar. Unrecognized bytes
become an `unknown` token rather than failing (§4.1), preserving totality. -/
inductive TokenKind where
  | lParen
  | rParen
  | atom
  | unknown
  | eof
  deriving DecidableEq

/-- Modelled from the spec: an immutable token = kind, source text, attached
leading and trailing trivia (§3 Data Model). -/
structure Token where
  kind : TokenKind
  text : List Char
  leading : List Trivia
  trailing : List Trivia
  deriving DecidableEq

/-- Text of a trivia list, in order. -/
def triviaText : List Trivia → List Char
  | [] => []
  | t :: ts => t.text ++ triviaText ts

/-- Full text of a token: leading trivia, token text, trailing trivia. -/
def tokenText (t : Token) : List Char :=
  triviaText t.leading ++ t.text ++ triviaText t.trailing

/-- Concatenated full text of a token list, in order. -/
def tokensText : List Token → List Char
  | [] => []
  | t :: ts => tokenText t ++ tokensText ts

/-- Modelled from the spec: byte classification of the lexer (§4.1). Every
character is classified into exactly one token kind; unrecognized characters
become `unknown`, never a failure. -/
def classify (c : Char) : TokenKind :=
  if c = '(' then .lParen
  else if c = ')' then .rParen
  else if c.isAlphanum then .atom
  else .unknown

/-- Modelled from the spec: the lexer loop (§4.1, §4.2). Whitespace accumulates
as pending trivia attached to the next meaningful token (attachment policy is a
configurable choice per §9; this model attaches as leading trivia); every other
character becomes a one-character token. The end-of-file token carries the
trailing trivia bucket (§3 Syntax Tree). -/
def lexGo (pending : List Trivia) : List Char → List Token
  | [] => [⟨.eof, [], pending.reverse, []⟩]
  | c :: cs =>
    if c.isWhitespace then
      lexGo (⟨.whitespace, [c]⟩ :: pending) cs
    else
      ⟨classify c, [c], pending.reverse, []⟩ :: lexGo [] cs

/-- Modelled from the spec: the lexer, run on a whole source buffer (§4.1). -/
def lex (s : List Char) : List Token :=
  lexGo [] s

/-- Modelled from the spec: node kinds of the syntax tree; `errorNode` wraps
malformed regions (§4.4 Error Recovery). -/
inductive NodeKind where
  | program
  | paren
  | errorNode
  deriving DecidableEq

/-- Modelled from the spec: parser events (§3 Data Model): StartNode(kind),
Token, FinishNode, Error(diagnostic). -/
inductive Event where
  | startNode (k : NodeKind)
  | token (t : Token)
  | finishNode
  | errorEvent (msg : List Char)
  deriving DecidableEq

/-- Modelled from the spec: recovery at end of input (§4.4): every still-open
node is closed, each with a diagnostic naming what was expected, and finally
the root program node is finished. -/
def closeAll : Nat → List Event
  | 0 => [Event.finishNode]
  | d + 1 =>
    Event.errorEvent ('u' :: 'n' :: 't' :: 'e' :: 'r' :: 'm' :: []) ::
      Event.finishNode :: closeAll d

/-- Modelled from the spec: the event-emitting parser loop (§4.3, §4.4) over a
minimal nesting grammar. `depth` counts open paren nodes inside the program
node. An opening paren starts a nested node; a closing paren finishes one, or —
when none is open — is wrapped into an error node with a diagnostic (recovery
consumes the offending token and continues, §4.4); unknown tokens are likewise
wrapped into error nodes; the end-of-file token is emitted and all open nodes
are closed. Each step consumes exactly one token, so parsing is total and
linear in the token count. -/
def parseGo (depth : Nat) : List Token → List Event
  | [] => closeAll depth
  | t :: ts =>
    match t.kind with
    | .eof => Event.token t :: closeAll depth
    | .lParen => Event.startNode .paren :: Event.token t :: parseGo (depth + 1) ts
    | .rParen =>
      match depth with
      | 0 =>
        Event.errorEvent ('s' :: 't' :: 'r' :: 'a' :: 'y' :: []) ::
          Event.startNode .errorNode :: Event.token t :: Event.finishNode :: parseGo 0 ts
      | d + 1 => Event.token t :: Event.finishNode :: parseGo d ts
    | .atom => Event.token t :: parseGo depth ts
    | .unknown =>
      Event.errorEvent ('u' :: 'n' :: 'k' :: []) ::
        Event.startNode .errorNode :: Event.token t :: Event.finishNode :: parseGo depth ts

/-- Modelled from the spec: the full event stream of a source text: a program
node wrapping the parsed token stream (§4.3). -/
def events (s : List Char) : List Event :=
  Event.startNode .program :: parseGo 0 (lex s)

/-- Modelled from the spec: an element of the immutable syntax tree — an
interior node with a kind tag and ordered children, or a token leaf (§3). -/
inductive Element where
  | node (k : NodeKind) (children : List Element)
  | token (t : Token)

/-- Modelled from the spec: the tree sink (§4.5). Replays the event stream over
a stack of in-progress node builders: StartNode pushes a builder, Token appends
to the top builder, FinishNode pops and attaches the finished node to the new
top (or, when the stack empties, yields the root — rejecting trailing events),
Error records a diagnostic. Malformed streams are rejected (`none`). Children
are accumulated in reverse and reversed on finish. -/
def sinkGo : List Event → List (NodeKind × List Element) → List (List Char) →
    Option (Element × List (List Char))
  | Event.startNode k :: es, stack, ds => sinkGo es ((k, []) :: stack) ds
  | Event.token t :: es, (k, cs) :: stack, ds =>
    sinkGo es ((k, Element.token t :: cs) :: stack) ds
  | Event.token _ :: _, [], _ => none
  | Event.finishNode :: es, (k, cs) :: stack, ds =>
    match stack, es with
    | [], [] => some (Element.node k cs.reverse, ds.reverse)
    | [], _ :: _ => none
    | (k2, cs2) :: rest, _ =>
      sinkGo es ((k2, Element.node k cs.reverse :: cs2) :: rest) ds
  | Event.finishNode :: _, [], _ => none
  | Event.errorEvent d :: es, stack, ds => sinkGo es stack (d :: ds)
  | [], _, _ => none

/-- Modelled from the spec: the tree sink entry point (§4.5): event stream →
tree plus diagnostic list, `none` on a malformed stream. -/
def sink (es : List Event) : Option (Element × List (List Char)) :=
  sinkGo es [] []

/-- Modelled from the spec: the whole pipeline (§2 data flow): source text →
lexer → parser events → tree sink. -/
def parse (s : List Char) : Option (Element × List (List Char)) :=
  sink (events s)

mutual

/-- Concatenated source text of a tree element: token leaves contribute their
full text (trivia included), nodes the texts of their children in order. -/
def elemText : Element → List Char
  | .token t => tokenText t
  | .node _ cs => childrenText cs

/-- Concatenated source text of a child list. -/
def childrenText : List Element → List Char
  | [] => []
  | c :: cs => elemText c ++ childrenText cs

end

/-- Modelled from the spec: the stack-depth simulation of §8 property 3, run
over the event stream with an integer depth: StartNode increments, FinishNode
requires a positive depth (never going negative) and decrements, and the
stream must end at depth zero. -/
def stackSim : List Event → Int → Bool
  | [], d => d == 0
  | Event.startNode _ :: es, d => stackSim es (d + 1)
  | Event.finishNode :: es, d => decide (0 < d) && stackSim es (d - 1)
  | Event.token _ :: es, d => stackSim es d
  | Event.errorEvent _ :: es, d => stackSim es d

/-- Concatenated full text of the tokens carried by an event stream, in
order. -/
def evTokText : List Event → List Char
  | [] => []
  | Event.token t :: es => tokenText t ++ evTokText es
  | Event.startNode _ :: es => evTokText es
  | Event.finishNode :: es => evTokText es
  | Event.errorEvent _ :: es => evTokText es

/-- Text already accumulated in the sink's builder stack: outer (earlier)
builders first, each builder's children read in insertion order (they are
stored reversed). -/
def stackText : List (NodeKind × List Element) → List Char
  | [] => []
  | (_, cs) :: rest => stackText rest ++ childrenText cs.reverse

end Core

namespace Biome

/-- Syntax kinds of the JS nodes involved in the `NoUnsafeNegation` rule
(`biome_js_syntax::JsSyntaxKind`, restricted to the kinds the rule touches). -/
inductive JsSyntaxKind where
  | jsInstanceofExpression
  | jsInExpression
  | jsUnaryExpression
  | jsParenthesizedExpression
  | jsArrayExpression
  | jsArrayElementList
  | jsNumberLiteralExpression
  | jsIdentifierExpression
  | jsPrivateName
  | jsBogusExpression
  deriving DecidableEq, BEq

/-- Token kinds relevant to the rule: the unary operators of
`JsUnaryExpression` (`!`, `-`, `+`, `~`, `typeof`, `void`, `delete`) plus the
structural tokens of the expressions involved. -/
inductive JsTokenKind where
  | bang
  | minus
  | plus
  | tilde
  | typeofKw
  | voidKw
  | deleteKw
  | inKw
  | instanceofKw
  | lParen
  | rParen
  | lBrack
  | rBrack
  | comma
  | numberLit
  | ident
  deriving DecidableEq, BEq

/-- A syntax token: kind, source text, and attached leading/trailing trivia
(collapsed to their text, which is all printing needs). -/
structure JsToken where
  kind : JsTokenKind
  text : String
  leading : String
  trailing : String
  deriving DecidableEq, BEq

/-- An untyped syntax element (`biome_rowan` green/red element): an interior
node with a kind tag and a fixed slot list — a slot holds a child element or
is empty when the child is syntactically absent (error recovery) — or a token
leaf. -/
inductive JsElement where
  | node (kind : JsSyntaxKind) (slots : List (Option JsElement))
  | token (t : JsToken)

mutual

/-- Structural equality of syntax elements (stands in for `rowan` node
identity when locating a replacement target in a concrete tree). -/
def beqE : JsElement → JsElement → Bool
  | .node k1 s1, .node k2 s2 => k1 == k2 && beqSlots s1 s2
  | .token t1, .token t2 => t1 == t2
  | .node _ _, .token _ => false
  | .token _, .node _ _ => false

/-- Structural equality of slot lists. -/
def beqSlots : List (Option JsElement) → List (Option JsElement) → Bool
  | [], [] => true
  | none :: r1, none :: r2 => beqSlots r1 r2
  | some e1 :: r1, some e2 :: r2 => beqE e1 e2 && beqSlots r1 r2
  | _, _ => false

end

/-- The kind tag of an element; tokens carry no node kind. -/
def JsElement.kindOf : JsElement → Option JsSyntaxKind
  | .node k _ => some k
  | .token _ => none

/-- The slot list of an element; tokens have none. -/
def JsElement.slotList : JsElement → List (Option JsElement)
  | .node _ s => s
  | .token _ => []

/-- Child in slot `i`: `none` both when the slot is empty and when `i` is out
of range — child access is fallible, never out-of-bounds (spec §4.6). -/
def slotAt (e : JsElement) (i : Nat) : Option JsElement :=
  (e.slotList[i]?).join

mutual

/-- Source text of an element: tokens print leading trivia, text, trailing
trivia; nodes print their present slots in order (empty slots print nothing). -/
def textOfElement : JsElement → String
  | .token t => t.leading ++ t.text ++ t.trailing
  | .node _ slots => textOfSlots slots

/-- Source text of a slot list. -/
def textOfSlots : List (Option JsElement) → String
  | [] => ""
  | none :: rest => textOfSlots rest
  | some e :: rest => textOfElement e ++ textOfSlots rest

end

/-- Kinds accepted by the `AnyJsExpression` union (restricted to the kinds
modelled here): every expression kind, excluding non-expression kinds such as
`jsPrivateName` and `jsArrayElementList`. -/
def isAnyJsExpressionKind : JsSyntaxKind → Bool
  | .jsInstanceofExpression => true
  | .jsInExpression => true
  | .jsUnaryExpression => true
  | .jsParenthesizedExpression => true
  | .jsArrayExpression => true
  | .jsNumberLiteralExpression => true
  | .jsIdentifierExpression => true
  | .jsBogusExpression => true
  | .jsPrivateName => false
  | .jsArrayElementList => false

/-- Kinds accepted by the `AnyJsInProperty` union: any expression, or a
private name (`#x in obj`). -/
def isAnyJsInPropertyKind (k : JsSyntaxKind) : Bool :=
  isAnyJsExpressionKind k || k == .jsPrivateName

/-- `support::required_node`: fetch slot `i` and cast it to a union described
by the accepted-kind predicate; absent slot, out-of-range index, token
content, or an unaccepted kind all yield `none` (the `SyntaxResult` missing
case), never a panic. -/
def requiredNodeSlot (e : JsElement) (i : Nat) (accept : JsSyntaxKind → Bool) :
    Option JsElement :=
  match slotAt e i with
  | some el =>
    match el.kindOf with
    | some k => if accept k then some el else none
    | none => none
  | none => none

/-- `support::required_token`: fetch slot `i` expecting a token; anything else
is the missing case. -/
def requiredTokenSlot (e : JsElement) (i : Nat) : Option JsToken :=
  match slotAt e i with
  | some (.token t) => some t
  | some (.node _ _) => none
  | none => none

/-- Typed wrapper for `JS_INSTANCEOF_EXPRESSION` nodes
(`biome_js_syntax::JsInstanceofExpression`); `stx` is the underlying untyped
node (the `syntax()` accessor). -/
structure JsInstanceofExpression where
  stx : JsElement

/-- Typed wrapper for `JS_IN_EXPRESSION` nodes
(`biome_js_syntax::JsInExpression`). -/
structure JsInExpression where
  stx : JsElement

/-- Typed wrapper for `JS_UNARY_EXPRESSION` nodes
(`biome_js_syntax::JsUnaryExpression`). -/
structure JsUnaryExpression where
  stx : JsElement

/-- `AstNode::cast` for `JsInstanceofExpression`: succeeds exactly when the
kind tag matches. -/
def JsInstanceofExpression.cast (e : JsElement) : Option JsInstanceofExpression :=
  if e.kindOf = some .jsInstanceofExpression then some ⟨e⟩ else none

/-- `AstNode::cast` for `JsInExpression`. -/
def JsInExpression.cast (e : JsElement) : Option JsInExpression :=
  if e.kindOf = some .jsInExpression then some ⟨e⟩ else none

/-- `AstNode::cast` for `JsUnaryExpression` (also
`AnyJsExpression::as_js_unary_expression`, which returns the unary variant
only when the union holds one). -/
def JsUnaryExpression.cast (e : JsElement) : Option JsUnaryExpression :=
  if e.kindOf = some .jsUnaryExpression then some ⟨e⟩ else none

/-- `JsInstanceofExpression::left`: required expression child in slot 0. -/
def JsInstanceofExpression.left (x : JsInstanceofExpression) : Option JsElement :=
  requiredNodeSlot x.stx 0 isAnyJsExpressionKind

/-- `JsInExpression::property`: required `AnyJsInProperty` child in slot 0. -/
def JsInExpression.property (x : JsInExpression) : Option JsElement :=
  requiredNodeSlot x.stx 0 isAnyJsInPropertyKind

/-- `JsUnaryExpression::operator_token`: required token in slot 0. -/
def JsUnaryExpression.operatorToken (x : JsUnaryExpression) : Option JsToken :=
  requiredTokenSlot x.stx 0

/-- `JsUnaryExpression::argument`: required expression child in slot 1. -/
def JsUnaryExpression.argument (x : JsUnaryExpression) : Option JsElement :=
  requiredNodeSlot x.stx 1 isAnyJsExpressionKind

/-- `AnyJsInProperty::as_any_js_expression`: the expression variant of the
union, `none` when the property is a private name. -/
def asAnyJsExpression (e : JsElement) : Option JsElement :=
  match e.kindOf with
  | some k => if isAnyJsExpressionKind k then some e else none
  | none => none

/-- Modelled from the spec: `biome_js_syntax::is_negation` (its source is not
under `src/`). Per the rule's examples (`!1 in [1,2]` invalid; `-1`, `~1`,
`typeof 1`, `void 1`, `delete 1`, `+1` valid), a node is a negation exactly
when it is a unary expression whose operator token is logical-not `!`. -/
def isNegation (e : JsElement) : Option JsUnaryExpression :=
  match JsUnaryExpression.cast e with
  | some u =>
    match u.operatorToken with
    | some t => if t.kind = .bang then some u else none
    | none => none
  | none => none

/-- The `JsInOrInstanceOfExpression` node union declared by the rule:
`JsInstanceofExpression | JsInExpression`. -/
inductive JsInOrInstanceOfExpression where
  | jsInstanceofExpression (x : JsInstanceofExpression)
  | jsInExpression (x : JsInExpression)

/-- Modelled from the spec: the validating constructor `declare_node_union`
generates (spec §4.6, §3 Typed AST Node): casting an untyped node succeeds
exactly when its kind tag is one of the union's accepted kinds, and wraps that
same node; any other kind yields absence. -/
def JsInOrInstanceOfExpression.cast (e : JsElement) :
    Option JsInOrInstanceOfExpression :=
  match e.kindOf with
  | some .jsInstanceofExpression => some (.jsInstanceofExpression ⟨e⟩)
  | some .jsInExpression => some (.jsInExpression ⟨e⟩)
  | _ => none

/-- The underlying untyped node of the union (its `syntax()`). -/
def JsInOrInstanceOfExpression.stxOf : JsInOrInstanceOfExpression → JsElement
  | .jsInstanceofExpression x => x.stx
  | .jsInExpression x => x.stx

mutual

/-- Replace every occurrence of `prev` by `next` inside `e` (locating the
target structurally; `rowan` locates it by node identity). -/
def replaceE (prev next e : JsElement) : JsElement :=
  if beqE e prev then next
  else
    match e with
    | .node k slots => .node k (replaceSlots prev next slots)
    | .token t => .token t

/-- `replaceE` over a slot list. -/
def replaceSlots (prev next : JsElement) :
    List (Option JsElement) → List (Option JsElement)
  | [] => []
  | none :: rest => none :: replaceSlots prev next rest
  | some c :: rest => some (replaceE prev next c) :: replaceSlots prev next rest

end

mutual

/-- Whether `prev` occurs in `e` (as `e` itself or inside a slot). -/
def containsE (prev e : JsElement) : Bool :=
  beqE e prev ||
    match e with
    | .node _ slots => containsSlots prev slots
    | .token _ => false

/-- `containsE` over a slot list. -/
def containsSlots (prev : JsElement) : List (Option JsElement) → Bool
  | [] => false
  | none :: rest => containsSlots prev rest
  | some c :: rest => containsE prev c || containsSlots prev rest

end

/-- Modelled from the spec: `AstNodeExt::replace_node_discard_trivia`
(`biome_rowan`, not under `src/`): the explicit trivia-discarding replacement
of spec §4.7 — rebuild `self` with `prev` replaced by `next` (which keeps its
own trivia), or `none` when `prev` does not occur inside `self`. -/
def replaceNodeDiscardTrivia (self prev next : JsElement) : Option JsElement :=
  if containsE prev self then some (replaceE prev next self) else none

/-- The `(` token manufactured by the node factory, with no trivia. -/
def madeLParen : JsToken := ⟨.lParen, "(", "", ""⟩

/-- The `)` token manufactured by the node factory, with no trivia. -/
def madeRParen : JsToken := ⟨.rParen, ")", "", ""⟩

/-- Modelled from the spec: `make::parenthesized` (`biome_js_factory`, not
under `src/`): wrap an expression in a fresh `JsParenthesizedExpression` with
bare `(` and `)` tokens. -/
def makeParenthesized (e : JsElement) : JsElement :=
  .node .jsParenthesizedExpression
    [some (.token madeLParen), some e, some (.token madeRParen)]

/-- Modelled from the spec: `make::js_unary_expression` (`biome_js_factory`,
not under `src/`): build a `JsUnaryExpression` from an operator token and an
argument expression. -/
def makeJsUnaryExpression (op : JsToken) (arg : JsElement) : JsElement :=
  .node .jsUnaryExpression [some (.token op), some arg]

/-- `biome_analyze::ActionCategory`, restricted to the variants this
development distinguishes. -/
inductive ActionCategory where
  | quickFix
  | refactor
  deriving DecidableEq

/-- `biome_diagnostics::Applicability`. -/
inductive Applicability where
  | always
  | maybeIncorrect
  deriving DecidableEq

/-- `BatchMutation`: the mutation builder — the root it was begun from plus
the recorded replacement pairs. -/
structure BatchMutation where
  root : JsElement
  replacements : List (JsElement × JsElement)

/-- `root.begin()`: start a mutation with no recorded replacements. -/
def JsElement.begin (root : JsElement) : BatchMutation :=
  ⟨root, []⟩

/-- `BatchMutation::replace_node(prev, next)`: record a replacement pair. -/
def BatchMutation.replaceNode (m : BatchMutation) (prev next : JsElement) :
    BatchMutation :=
  { m with replacements := m.replacements ++ [(prev, next)] }

/-- Committing a mutation: apply every recorded replacement to the root,
producing the new tree (the original root value is untouched). -/
def applyMutation (m : BatchMutation) : JsElement :=
  m.replacements.foldl (fun r p => replaceE p.1 p.2 r) m.root

/-- `JsRuleAction`: category, applicability, message, and the mutation
producing the new root. -/
structure JsRuleAction where
  category : ActionCategory
  applicability : Applicability
  message : String
  mutation : BatchMutation

/-- `RuleContext` for the rule: the root of the tree (`ctx.root()`) and the
queried node (`ctx.query()`), already in typed-union form. -/
structure RuleContext where
  root : JsElement
  queryNode : JsInOrInstanceOfExpression

/-- `NoUnsafeNegation::run` (no_unsafe_negation.rs lines 51–65): for an
`instanceof` expression take `left()`, for an `in` expression take
`property()`; `.ok()?` propagates absence; then
`is_negation(left.syntax()).and(Some(()))`. -/
def NoUnsafeNegation.run (ctx : RuleContext) : Option Unit :=
  match ctx.queryNode with
  | .jsInstanceofExpression expr =>
    match expr.left with
    | some left =>
      match isNegation left with
      | some _ => some ()
      | none => none
    | none => none
  | .jsInExpression expr =>
    match expr.property with
    | some left =>
      match isNegation left with
      | some _ => some ()
      | none => none
    | none => none

/-- `NoUnsafeNegation::action` (no_unsafe_negation.rs lines 78–134): remove
the `!` of the unary operand, wrap the resulting binary expression in
parentheses, negate the parenthesized expression, and record the replacement
of the whole expression in a mutation begun from `ctx.root()`; every fallible
step propagates `None`. -/
def NoUnsafeNegation.action (ctx : RuleContext) : Option JsRuleAction :=
  match ctx.queryNode with
  | .jsInstanceofExpression expr => do
    let left ← expr.left
    let unaryExpression ← JsUnaryExpression.cast left
    let argument ← unaryExpression.argument
    let nextExpr ← replaceNodeDiscardTrivia expr.stx left argument
    let nextParenthesisExpression := makeParenthesized nextExpr
    let opTok ← unaryExpression.operatorToken
    let nextUnaryExpression := makeJsUnaryExpression opTok nextParenthesisExpression
    let mutation := (JsElement.begin ctx.root).replaceNode expr.stx nextUnaryExpression
    some { category := .quickFix
           applicability := .maybeIncorrect
           message := "Wrap the expression with a parenthesis"
           mutation := mutation }
  | .jsInExpression expr => do
    let left ← expr.property
    let leftExpr ← asAnyJsExpression left
    let unaryExpression ← JsUnaryExpression.cast leftExpr
    let argument ← unaryExpression.argument
    let nextExpr ← replaceNodeDiscardTrivia expr.stx left argument
    let nextParenthesisExpression := makeParenthesized nextExpr
    let opTok ← unaryExpression.operatorToken
    let nextUnaryExpression := makeJsUnaryExpression opTok nextParenthesisExpression
    let mutation := (JsElement.begin ctx.root).replaceNode expr.stx nextUnaryExpression
    some { category := .quickFix
           applicability := .maybeIncorrect
           message := "Wrap the expression with a parenthesis"
           mutation := mutation }

/-- The operand the rule tests: `left()` of an `instanceof` expression,
`property()` of an `in` expression. -/
def testedOperand : JsInOrInstanceOfExpression → Option JsElement
  | .jsInstanceofExpression e => e.left
  | .jsInExpression e => e.property

/-- The shape precondition of the fix: the tested operand is present, is a
unary expression (for `in`, additionally an expression rather than a private
name), and that unary expression has both its argument and its operator
token. -/
def fixPrecondition : JsInOrInstanceOfExpression → Bool
  | .jsInstanceofExpression e =>
    (do
      let l ← e.left
      let u ← JsUnaryExpression.cast l
      let _ ← u.argument
      let _ ← u.operatorToken
      some ()).isSome
  | .jsInExpression e =>
    (do
      let p ← e.property
      let pe ← asAnyJsExpression p
      let u ← JsUnaryExpression.cast pe
      let _ ← u.argument
      let _ ← u.operatorToken
      some ()).isSome

/-- Strict-mode reasons tracked by the parser state (`state.rs`, whose source
is not under `src/`; only `is_none`/`is_some` on the option matter here). -/
inductive StrictModeReason where
  | moduleCtx
  | explicitDirective
  | classCtx
  deriving DecidableEq

/-- The source language (`is_typescript` is all `is_supported` consults). -/
inductive Language where
  | javaScript
  | typeScript
  deriving DecidableEq

/-- `Language::is_typescript`. -/
def Language.isTypescript : Language → Bool
  | .javaScript => false
  | .typeScript => true

/-- `LanguageVariant`: standard JS vs JSX. -/
inductive LanguageVariant where
  | standard
  | jsx
  deriving DecidableEq

/-- The source type: language plus variant. -/
structure JsSourceType where
  language : Language
  variant : LanguageVariant

/-- The slice of `JsParserState` that `is_supported` consults: the optional
strict-mode flag (`state().strict()`). -/
structure JsParserState where
  strict : Option StrictModeReason

/-- The slice of `JsParser` that `is_supported` consults: its state and its
source type. -/
structure JsParser where
  state : JsParserState
  sourceType : JsSourceType

/-- `JsSyntaxFeature` (lib.rs lines 87–93). -/
inductive JsSyntaxFeature where
  | sloppyMode
  | strictMode
  | typeScript
  | jsx
  deriving DecidableEq

/-- `JsSyntaxFeature::is_supported` (lib.rs lines 98–105): sloppy mode iff no
strict flag, strict mode iff some strict flag, TypeScript iff the language is
TypeScript, JSX iff the variant is JSX. -/
def JsSyntaxFeature.isSupported (f : JsSyntaxFeature) (p : JsParser) : Bool :=
  match f with
  | .sloppyMode => p.state.strict.isNone
  | .strictMode => p.state.strict.isSome
  | .typeScript => p.sourceType.language.isTypescript
  | .jsx => p.sourceType.variant = .jsx

/-- The `!` token of the source `"!1 in [1,2]"`, no trivia. -/
def bangTok : JsToken := ⟨.bang, "!", "", ""⟩

/-- The `1` token negated in `"!1 in [1,2]"`; the space before `in` is its
trailing trivia. -/
def oneTok : JsToken := ⟨.numberLit, "1", "", " "⟩

/-- The `in` keyword token, with its trailing space. -/
def inTok : JsToken := ⟨.inKw, "in", "", " "⟩

/-- The number-literal node `1 ` (operand of `!`). -/
def oneLit : JsElement := .node .jsNumberLiteralExpression [some (.token oneTok)]

/-- The unary expression `!1 `. -/
def unaryNotOne : JsElement :=
  .node .jsUnaryExpression [some (.token bangTok), some oneLit]

/-- The array expression `[1,2]`. -/
def arrayOneTwo : JsElement :=
  .node .jsArrayExpression
    [some (.token ⟨.lBrack, "[", "", ""⟩),
     some (.node .jsArrayElementList
       [some (.node .jsNumberLiteralExpression [some (.token ⟨.numberLit, "1", "", ""⟩)]),
        some (.token ⟨.comma, ",", "", ""⟩),
        some (.node .jsNumberLiteralExpression [some (.token ⟨.numberLit, "2", "", ""⟩)])]),
     some (.token ⟨.rBrack, "]", "", ""⟩)]

/-- The `in` expression the source `"!1 in [1,2]"` parses to: property `!1`,
`in` keyword, object `[1,2]`. -/
def inExprC3 : JsElement :=
  .node .jsInExpression [some unaryNotOne, some (.token inTok), some arrayOneTwo]

/-- Rule context for the query on `"!1 in [1,2]"`: the expression is both the
root and the queried node. -/
def ctxC3 : RuleContext :=
  ⟨inExprC3, .jsInExpression ⟨inExprC3⟩⟩

/-- A malformed `instanceof` node as error recovery can produce it: all
children absent. -/
def emptyInstanceofNode : JsElement := .node .jsInstanceofExpression []

/-- Rule context whose queried `instanceof` node has no children at all. -/
def ctxEmptyInstanceof : RuleContext :=
  ⟨emptyInstanceofNode, .jsInstanceofExpression ⟨emptyInstanceofNode⟩⟩

end Biome

namespace Biome

/-- C9: for every parser, the SloppyMode feature is supported exactly when the
StrictMode feature is not: `is_supported` checks `strict().is_none()` for the
former and `strict().is_some()` for the latter on the same state. -/
theorem sloppy_supported_iff_strict_not (p : JsParser) :
    JsSyntaxFeature.isSupported .sloppyMode p =
      !JsSyntaxFeature.isSupported .strictMode p := by
  cases h : p.state.strict <;>
    simp [JsSyntaxFeature.isSupported, h]

/-- C5: casting an untyped node to the `JsInOrInstanceOfExpression` union
succeeds exactly when the node's kind tag is `JS_INSTANCEOF_EXPRESSION` or
`JS_IN_EXPRESSION`; any other kind yields absence, and a successful cast wraps
exactly the node that was cast (never a mismatched-kind read). -/
theorem union_cast_iff_kind_accepted (n : JsElement) :
    ((JsInOrInstanceOfExpression.cast n).isSome = true ↔
      (n.kindOf = some .jsInstanceofExpression ∨ n.kindOf = some .jsInExpression)) ∧
    (∀ u, JsInOrInstanceOfExpression.cast n = some u → u.stxOf = n) := by
  constructor
  · cases n with
    | token t => simp [JsInOrInstanceOfExpression.cast, JsElement.kindOf]
    | node k slots =>
      cases k <;>
        simp [JsInOrInstanceOfExpression.cast, JsElement.kindOf]
  · intro u h
    cases n with
    | token t => simp [JsInOrInstanceOfExpression.cast, JsElement.kindOf] at h
    | node k slots =>
      cases k <;>
        simp only [JsInOrInstanceOfExpression.cast, JsElement.kindOf,
          Option.some.injEq, reduceCtorEq] at h <;>
        first
          | exact absurd h not_false
          | (subst h; rfl)

/-- Witness for C5 at the concrete `in` expression of `"!1 in [1,2]"`. -/
theorem union_cast_iff_kind_accepted_witness :
    (JsInOrInstanceOfExpression.jsInExpression ⟨inExprC3⟩).stxOf = inExprC3 :=
  (union_cast_iff_kind_accepted inExprC3).2 _ rfl

/-- C6: the child accessors of the typed wrappers are fallible and in-bounds:
when slot 0 is absent, `JsInstanceofExpression::left` (resp.
`JsInExpression::property`) returns the explicit missing result `none`, and
when the accessor does return a child, that child is exactly the node stored
in slot 0 — never an out-of-bounds read. -/
theorem accessors_fallible (e : JsInstanceofExpression) (f : JsInExpression) :
    (slotAt e.stx 0 = none → e.left = none) ∧
    (∀ l, e.left = some l → slotAt e.stx 0 = some l) ∧
    (slotAt f.stx 0 = none → f.property = none) ∧
    (∀ p, f.property = some p → slotAt f.stx 0 = some p) := by
  refine ⟨?_, ?_, ?_, ?_⟩
  · intro h
    simp [JsInstanceofExpression.left, requiredNodeSlot, h]
  · intro l h
    unfold JsInstanceofExpression.left requiredNodeSlot at h
    split at h
    · rename_i el hsl
      split at h
      · split at h
        · exact hsl.trans (congrArg some (Option.some_inj.mp h))
        · exact absurd h (by simp)
      · exact absurd h (by simp)
    · exact absurd h (by simp)
  · intro h
    simp [JsInExpression.property, requiredNodeSlot, h]
  · intro p h
    unfold JsInExpression.property requiredNodeSlot at h
    split at h
    · rename_i el hsl
      split at h
      · split at h
        · exact hsl.trans (congrArg some (Option.some_inj.mp h))
        · exact absurd h (by simp)
      · exact absurd h (by simp)
    · exact absurd h (by simp)

/-- Witness for C6: on `instanceof`/`in` nodes with no children at all, both
accessors return the explicit missing result. -/
theorem accessors_fallible_witness :
    JsInstanceofExpression.left ⟨emptyInstanceofNode⟩ = none ∧
    JsInExpression.property ⟨.node .jsInExpression []⟩ = none :=
  ⟨(accessors_fallible ⟨emptyInstanceofNode⟩ ⟨.node .jsInExpression []⟩).1 rfl,
   (accessors_fallible ⟨emptyInstanceofNode⟩ ⟨.node .jsInExpression []⟩).2.2.1 rfl⟩

/-- C10: `NoUnsafeNegation::run` signals exactly when the tested operand — the
left operand of an `instanceof` expression, the property operand of an `in`
expression — is present and is a logical-not unary expression; an absent
operand or any other operator yields `None`. -/
theorem run_signals_iff_negation (ctx : RuleContext) :
    NoUnsafeNegation.run ctx = some () ↔
      ∃ l, testedOperand ctx.queryNode = some l ∧ (isNegation l).isSome = true := by
  obtain ⟨root, q⟩ := ctx
  cases q with
  | jsInstanceofExpression e =>
    simp only [NoUnsafeNegation.run, testedOperand]
    cases hl : e.left with
    | none => simp
    | some l =>
      cases hn : isNegation l with
      | none => simp [hn]
      | some u => simp [hn]
  | jsInExpression e =>
    simp only [NoUnsafeNegation.run, testedOperand]
    cases hl : e.property with
    | none => simp
    | some l =>
      cases hn : isNegation l with
      | none => simp [hn]
      | some u => simp [hn]

/-- C4: whenever the matched node does not have the shape the fix expects —
the tested operand is absent, is not a unary expression, or lacks its argument
or operator token — `NoUnsafeNegation::action` returns `None` (no fix), never
a mutation. -/
theorem action_none_without_fix_shape (ctx : RuleContext)
    (h : fixPrecondition ctx.queryNode = false) :
    NoUnsafeNegation.action ctx = none := by
  obtain ⟨root, q⟩ := ctx
  cases q with
  | jsInstanceofExpression e =>
    simp only [fixPrecondition, Option.bind_eq_bind] at h
    simp only [NoUnsafeNegation.action, Option.bind_eq_bind]
    cases hl : e.left with
    | none => simp [hl]
    | some l =>
      simp only [hl, Option.some_bind] at h ⊢
      cases hc : JsUnaryExpression.cast l with
      | none => simp [hc]
      | some u =>
        simp only [hc, Option.some_bind] at h ⊢
        cases ha : u.argument with
        | none => simp [ha]
        | some arg =>
          simp only [ha, Option.some_bind] at h ⊢
          cases hr : replaceNodeDiscardTrivia e.stx l arg with
          | none => simp [hr]
          | some nxt =>
            simp only [hr, Option.some_bind]
            cases ho : u.operatorToken with
            | none => simp [ho]
            | some t => simp [ho] at h
  | jsInExpression e =>
    simp only [fixPrecondition, Option.bind_eq_bind] at h
    simp only [NoUnsafeNegation.action, Option.bind_eq_bind]
    cases hl : e.property with
    | none => simp [hl]
    | some l =>
      simp only [hl, Option.some_bind] at h ⊢
      cases hp : asAnyJsExpression l with
      | none => simp [hp]
      | some pe =>
        simp only [hp, Option.some_bind] at h ⊢
        cases hc : JsUnaryExpression.cast pe with
        | none => simp [hc]
        | some u =>
          simp only [hc, Option.some_bind] at h ⊢
          cases ha : u.argument with
          | none => simp [ha]
          | some arg =>
            simp only [ha, Option.some_bind] at h ⊢
            cases hr : replaceNodeDiscardTrivia e.stx l arg with
            | none => simp [hr]
            | some nxt =>
              simp only [hr, Option.some_bind]
              cases ho : u.operatorToken with
              | none => simp [ho]
              | some t => simp [ho] at h

/-- Witness for C4: on an `instanceof` node with every child absent the
precondition fails and the action yields no fix. -/
theorem action_none_without_fix_shape_witness :
    fixPrecondition ctxEmptyInstanceof.queryNode = false ∧
    NoUnsafeNegation.action ctxEmptyInstanceof = none :=
  ⟨rfl, action_none_without_fix_shape ctxEmptyInstanceof rfl⟩

/-- C7: every fix action the rule yields carries the full action descriptor:
category quick-fix, applicability may-be-incorrect, the human-readable message
`Wrap the expression with a parenthesis`, and a mutation begun from the
context's root that replaces the queried expression with a new node. -/
theorem action_descriptor (ctx : RuleContext) (a : JsRuleAction)
    (h : NoUnsafeNegation.action ctx = some a) :
    a.category = .quickFix ∧
    a.applicability = .maybeIncorrect ∧
    a.message = "Wrap the expression with a parenthesis" ∧
    a.mutation.root = ctx.root ∧
    ∃ nxt, a.mutation.replacements = [(ctx.queryNode.stxOf, nxt)] := by
  obtain ⟨root, q⟩ := ctx
  cases q with
  | jsInstanceofExpression e =>
    simp only [NoUnsafeNegation.action, Option.bind_eq_bind] at h
    cases hl : e.left with
    | none => simp [hl] at h
    | some l =>
      simp only [hl, Option.some_bind] at h
      cases hc : JsUnaryExpression.cast l with
      | none => simp [hc] at h
      | some u =>
        simp only [hc, Option.some_bind] at h
        cases ha : u.argument with
        | none => simp [ha] at h
        | some arg =>
          simp only [ha, Option.some_bind] at h
          cases hr : replaceNodeDiscardTrivia e.stx l arg with
          | none => simp [hr] at h
          | some nxt =>
            simp only [hr, Option.some_bind] at h
            cases ho : u.operatorToken with
            | none => simp [ho] at h
            | some t =>
              simp only [ho, Option.some_bind] at h
              obtain rfl := Option.some_inj.mp h
              exact ⟨rfl, rfl, rfl, rfl, _, rfl⟩
  | jsInExpression e =>
    simp only [NoUnsafeNegation.action, Option.bind_eq_bind] at h
    cases hl : e.property with
    | none => simp [hl] at h
    | some l =>
      simp only [hl, Option.some_bind] at h
      cases hp : asAnyJsExpression l with
      | none => simp [hp] at h
      | some pe =>
        simp only [hp, Option.some_bind] at h
        cases hc : JsUnaryExpression.cast pe with
        | none => simp [hc] at h
        | some u =>
          simp only [hc, Option.some_bind] at h
          cases ha : u.argument with
          | none => simp [ha] at h
          | some arg =>
            simp only [ha, Option.some_bind] at h
            cases hr : replaceNodeDiscardTrivia e.stx l arg with
            | none => simp [hr] at h
            | some nxt =>
              simp only [hr, Option.some_bind] at h
              cases ho : u.operatorToken with
              | none => simp [ho] at h
              | some t =>
                simp only [ho, Option.some_bind] at h
                obtain rfl := Option.some_inj.mp h
                exact ⟨rfl, rfl, rfl, rfl, _, rfl⟩

/-- Witness for C7 at the `"!1 in [1,2]"` context. -/
theorem action_descriptor_witness :
    ∃ a, NoUnsafeNegation.action ctxC3 = some a ∧
      a.category = .quickFix ∧ a.applicability = .maybeIncorrect ∧
      a.message = "Wrap the expression with a parenthesis" := by
  obtain ⟨a, ha⟩ : ∃ a, NoUnsafeNegation.action ctxC3 = some a := ⟨_, rfl⟩
  exact ⟨a, ha, (action_descriptor ctxC3 a ha).1, (action_descriptor ctxC3 a ha).2.1,
    (action_descriptor ctxC3 a ha).2.2.1⟩

/-- Counterexample to C3: on the tree of `"!1 in [1,2]"` the fix action's
mutation prints `"!(1 in [1,2])"` — the action removes the `!`, parenthesizes
the whole `in` expression and negates it — not `"(!1) in [1,2]"` as claimed. -/
theorem fix_output_not_parenthesized_negation :
    ((NoUnsafeNegation.action ctxC3).map fun a =>
        textOfElement (applyMutation a.mutation)) = some "!(1 in [1,2])" ∧
    ("!(1 in [1,2])" : String) ≠ "(!1) in [1,2]" :=
  ⟨rfl, by decide⟩

/-- C3 (amended): for the input `"!1 in [1,2]"`, whose tree the model prints
back verbatim, the NoUnsafeNegation fix action removes the `!` from the left
operand, wraps the resulting `in` expression in parentheses and negates the
parenthesized expression, producing the output text `"!(1 in [1,2])"`. -/
theorem fix_wraps_whole_in_expression :
    textOfElement inExprC3 = "!1 in [1,2]" ∧
    ((NoUnsafeNegation.action ctxC3).map fun a =>
        textOfElement (applyMutation a.mutation)) = some "!(1 in [1,2])" :=
  ⟨rfl, rfl⟩

end Biome

namespace Core

theorem triviaText_append (a b : List Trivia) :
    triviaText (a ++ b) = triviaText a ++ triviaText b := by
  induction a with
  | nil => rfl
  | cons t ts ih => simp [triviaText, ih]

/-- The lexer is lossless: the full text of the produced tokens is the pending
trivia followed by the remaining input. -/
theorem tokensText_lexGo (cs : List Char) :
    ∀ pending, tokensText (lexGo pending cs) =
      triviaText pending.reverse ++ cs := by
  induction cs with
  | nil =>
    intro pending
    simp [lexGo, tokensText, tokenText, triviaText]
  | cons c cs ih =>
    intro pending
    by_cases hw : c.isWhitespace
    · rw [lexGo, if_pos hw, ih, List.reverse_cons, triviaText_append]
      simp [triviaText]
    · rw [lexGo, if_neg hw]
      simp [tokensText, tokenText, ih [], triviaText]

/-- The lexer is lossless on a whole buffer. -/
theorem tokensText_lex (s : List Char) : tokensText (lex s) = s := by
  simp [lex, tokensText_lexGo, triviaText]

theorem evTokText_closeAll (d : Nat) : evTokText (closeAll d) = [] := by
  induction d with
  | zero => rfl
  | succ d ih => simp [closeAll, evTokText, ih]

theorem classify_ne_eof (c : Char) : classify c ≠ .eof := by
  unfold classify
  split_ifs <;> simp

/-- The parser emits every lexed token exactly once, in order: the token text
of the event stream is the token text of the lexed input. -/
theorem evTokText_parseGo (cs : List Char) :
    ∀ depth pending,
      evTokText (parseGo depth (lexGo pending cs)) = tokensText (lexGo pending cs) := by
  induction cs with
  | nil =>
    intro depth pending
    simp [lexGo, parseGo, evTokText, evTokText_closeAll, tokensText]
  | cons c cs ih =>
    intro depth pending
    by_cases hw : c.isWhitespace
    · rw [lexGo, if_pos hw]
      exact ih depth _
    · rw [lexGo, if_neg hw]
      cases hc : classify c with
      | eof => exact absurd hc (classify_ne_eof c)
      | lParen => simp [parseGo, hc, evTokText, tokensText, ih]
      | rParen =>
        cases depth with
        | zero => simp [parseGo, hc, evTokText, tokensText, ih]
        | succ d => simp [parseGo, hc, evTokText, tokensText, ih]
      | atom => simp [parseGo, hc, evTokText, tokensText, ih]
      | unknown => simp [parseGo, hc, evTokText, tokensText, ih]

theorem stackSim_closeAll (d : Nat) :
    stackSim (closeAll d) ((d : Int) + 1) = true := by
  induction d with
  | zero => simp [closeAll, stackSim]
  | succ n ih =>
    have hc : ((n + 1 : Nat) : Int) + 1 = ((n : Int) + 1) + 1 := by push_cast; ring
    rw [hc]
    simp only [closeAll, stackSim]
    rw [show ((n : Int) + 1) + 1 - 1 = (n : Int) + 1 by ring]
    simp [ih, show (0 : Int) < ((n : Int) + 1) + 1 by omega]

/-- The event stream of the parser loop passes the stack-depth simulation when
started at the number of currently open nodes. -/
theorem stackSim_parseGo (ts : List Token) :
    ∀ depth, stackSim (parseGo depth ts) ((depth : Int) + 1) = true := by
  induction ts with
  | nil =>
    intro depth
    simp [parseGo, stackSim_closeAll]
  | cons t ts ih =>
    intro depth
    cases ht : t.kind with
    | eof => simp [parseGo, ht, stackSim, stackSim_closeAll]
    | lParen =>
      have hc : ((depth + 1 : Nat) : Int) + 1 = (((depth : Int) + 1) + 1) := by
        push_cast; ring
      simp only [parseGo, ht, stackSim]
      rw [← hc]
      exact ih (depth + 1)
    | rParen =>
      cases depth with
      | zero =>
        simp only [parseGo, ht, stackSim]
        rw [show ((0 : Nat) : Int) + 1 + 1 - 1 = ((0 : Nat) : Int) + 1 by ring]
        simp only [show (0 : Int) < ((0 : Nat) : Int) + 1 + 1 by omega, decide_eq_true_eq,
          Bool.true_and]
        simpa using ih 0
      | succ d =>
        have hc : ((d + 1 : Nat) : Int) + 1 = ((d : Int) + 1) + 1 := by push_cast; ring
        simp only [parseGo, ht, stackSim, hc]
        rw [show ((d : Int) + 1) + 1 - 1 = (d : Int) + 1 by ring]
        simp [ih d, show (0 : Int) < ((d : Int) + 1) + 1 by omega]
    | atom => simp [parseGo, ht, stackSim, ih depth]
    | unknown =>
      simp only [parseGo, ht, stackSim]
      rw [show ((depth : Int) + 1) + 1 - 1 = (depth : Int) + 1 by ring]
      simp [ih depth, show (0 : Int) < ((depth : Int) + 1) + 1 by omega]

theorem childrenText_append (a b : List Element) :
    childrenText (a ++ b) = childrenText a ++ childrenText b := by
  induction a with
  | nil => rfl
  | cons c cstl ih => simp [childrenText, ih]

/-- The sink accepts the close-out suffix whenever exactly `d + 1` builders are
still open. -/
theorem sinkGo_closeAll_isSome (d : Nat) :
    ∀ stack ds, stack.length = d + 1 →
      (sinkGo (closeAll d) stack ds).isSome = true := by
  induction d with
  | zero =>
    intro stack ds h
    cases stack with
    | nil => simp at h
    | cons hd tl =>
      cases tl with
      | nil =>
        obtain ⟨k, cs⟩ := hd
        simp [closeAll, sinkGo]
      | cons hd2 tl2 => simp at h
  | succ n ih =>
    intro stack ds h
    cases stack with
    | nil => simp at h
    | cons hd tl =>
      cases tl with
      | nil => simp at h
      | cons hd2 tl2 =>
        obtain ⟨k, cs⟩ := hd
        obtain ⟨k2, cs2⟩ := hd2
        simp only [closeAll, sinkGo]
        apply ih
        simp at h ⊢
        omega

/-- The sink accepts the parser loop's stream whenever exactly `depth + 1`
builders are open. -/
theorem sinkGo_parseGo_isSome (ts : List Token) :
    ∀ depth stack ds, stack.length = depth + 1 →
      (sinkGo (parseGo depth ts) stack ds).isSome = true := by
  induction ts with
  | nil =>
    intro depth stack ds h
    exact sinkGo_closeAll_isSome depth stack ds h
  | cons t ts ih =>
    intro depth stack ds h
    cases ht : t.kind with
    | eof =>
      cases stack with
      | nil => simp at h
      | cons hd tl =>
        obtain ⟨k, cs⟩ := hd
        simp only [parseGo, ht, sinkGo]
        apply sinkGo_closeAll_isSome
        simpa using h
    | lParen =>
      simp only [parseGo, ht, sinkGo]
      apply ih (depth + 1)
      simpa using h
    | rParen =>
      cases depth with
      | zero =>
        cases stack with
        | nil => simp at h
        | cons hd tl =>
          obtain ⟨k, cs⟩ := hd
          simp only [parseGo, ht, sinkGo]
          apply ih 0
          simpa using h
      | succ d =>
        cases stack with
        | nil => simp at h
        | cons hd tl =>
          cases tl with
          | nil => simp at h
          | cons hd2 tl2 =>
            obtain ⟨k, cs⟩ := hd
            obtain ⟨k2, cs2⟩ := hd2
            simp only [parseGo, ht, sinkGo]
            apply ih d
            simp at h ⊢
            omega
    | atom =>
      cases stack with
      | nil => simp at h
      | cons hd tl =>
        obtain ⟨k, cs⟩ := hd
        simp only [parseGo, ht, sinkGo]
        apply ih depth
        simpa using h
    | unknown =>
      cases stack with
      | nil => simp at h
      | cons hd tl =>
        obtain ⟨k, cs⟩ := hd
        simp only [parseGo, ht, sinkGo]
        apply ih depth
        simpa using h

/-- The pipeline always yields a tree and diagnostics. -/
theorem parse_exists (s : List Char) :
    ∃ t ds, parse s = some (t, ds) := by
  have h : (sinkGo (parseGo 0 (lex s)) [(.program, [])] []).isSome = true :=
    sinkGo_parseGo_isSome (lex s) 0 [(.program, [])] [] (by simp)
  have hp : parse s = sinkGo (parseGo 0 (lex s)) [(.program, [])] [] := rfl
  rw [hp]
  obtain ⟨p, hsome⟩ := Option.isSome_iff_exists.mp h
  exact ⟨p.1, p.2, by rw [hsome]⟩

/-- Whatever tree the sink produces prints as the text already on the builder
stack followed by the token text of the remaining events. -/
theorem sinkGo_text (es : List Event) :
    ∀ stack ds t rds, sinkGo es stack ds = some (t, rds) →
      elemText t = stackText stack ++ evTokText es := by
  induction es with
  | nil =>
    intro stack ds t rds h
    simp [sinkGo] at h
  | cons e es ih =>
    intro stack ds t rds h
    cases e with
    | startNode k =>
      simp only [sinkGo] at h
      have hx := ih _ _ _ _ h
      rw [hx]
      simp [stackText, childrenText, evTokText]
    | token tk =>
      cases stack with
      | nil => simp [sinkGo] at h
      | cons hd tl =>
        obtain ⟨k, cs⟩ := hd
        simp only [sinkGo] at h
        have hx := ih _ _ _ _ h
        rw [hx]
        simp [stackText, evTokText, List.reverse_cons, childrenText_append,
          childrenText, elemText, List.append_assoc]
    | finishNode =>
      cases stack with
      | nil => simp [sinkGo] at h
      | cons hd tl =>
        obtain ⟨k, cs⟩ := hd
        cases tl with
        | nil =>
          cases es with
          | nil =>
            simp only [sinkGo, Option.some_inj, Prod.mk.injEq] at h
            obtain ⟨ht, hds⟩ := h
            rw [← ht]
            simp [elemText, stackText, evTokText, childrenText]
          | cons e2 es2 => simp [sinkGo] at h
        | cons hd2 tl2 =>
          obtain ⟨k2, cs2⟩ := hd2
          simp only [sinkGo] at h
          have hx := ih _ _ _ _ h
          rw [hx]
          simp [stackText, evTokText, List.reverse_cons, childrenText_append,
            childrenText, elemText, List.append_assoc]
    | errorEvent m =>
      simp only [sinkGo] at h
      have hx := ih _ _ _ _ h
      rw [hx]
      simp [evTokText]

/-- C1: for every input character sequence — including arbitrary garbage —
parsing terminates (it is a total function) and returns a syntax tree plus a
(possibly empty) diagnostic list; it never aborts. Erroneous regions are
wrapped in `errorNode`s by `parseGo` rather than causing failure. -/
theorem parse_total (s : List Char) :
    ∃ t ds, parse s = some (t, ds) :=
  parse_exists s

/-- C8: for every input, the parser's event stream is well-formed: the
stack-depth simulation — StartNode pushes, FinishNode pops and must find a
positive depth — never goes negative and ends at zero, so every StartNode has
exactly one matching FinishNode with proper nesting. -/
theorem events_balanced (s : List Char) :
    stackSim (events s) 0 = true := by
  have h := stackSim_parseGo (lex s) 0
  simp only [events, stackSim]
  simpa using h

/-- C2: lossless round-trip — for every source text (empty, whitespace-only,
or malformed), printing the tree obtained by parsing it, i.e. concatenating
every token's text together with all trivia in order, yields exactly the
original input. -/
theorem parse_roundtrip (s : List Char) :
    (parse s).map (fun p => elemText p.1) = some s := by
  obtain ⟨t, ds, h⟩ := parse_exists s
  rw [h]
  have hx := sinkGo_text (events s) [] [] t ds h
  have hs : elemText t = s := by
    calc elemText t = evTokText (parseGo 0 (lexGo [] s)) := by
          simpa [stackText, events, evTokText] using hx
      _ = tokensText (lexGo [] s) := evTokText_parseGo s 0 []
      _ = s := by simpa [lex] using tokensText_lex s
  simp [hs]

end Core
